import Mathlib

/-!
Verification of the template-substitution engine of delphos-works
(`src/app.py` and `src/functions/generate-document/handler.py`; the two
files contain byte-identical copies of `replace_placeholders_in_text`
and `process_tables`, so one embedding covers both).

The engine works on decoded JSON data (Python dicts with string keys)
and on python-docx documents (paragraph text, tables of rows of cells).
We embed:
  * Python `str.replace` (all non-overlapping occurrences, left to
    right, no re-scan of replaced output) as `pyReplace`;
  * Python values as `PyVal` with `pyStr` for `str(value)`;
  * `replace_placeholders_in_text` over the paragraph's text;
  * `process_tables` over a table modelled as a column count plus a
    list of rows of cell texts.
-/

namespace DelphosWorks

/-! ### Python `str.replace`

`pyReplaceGo pat rep fuel s` scans `s` left to right; each step either
copies one char or, on a match of `pat`, emits `rep` and jumps past the
matched occurrence, exactly like CPython's `str.replace`.  Every step
consumes at least one character of `s`, so `fuel = s.length` always
suffices; the fuel only makes the recursion structural. -/

def pyReplaceGo (pat rep : List Char) : Nat → List Char → List Char
  | _, [] => []
  | 0, s => s
  | fuel + 1, c :: cs =>
    if pat.isPrefixOf (c :: cs) then
      rep ++ pyReplaceGo pat rep fuel (cs.drop (pat.length - 1))
    else
      c :: pyReplaceGo pat rep fuel cs

def pyReplaceL (pat rep s : List Char) : List Char :=
  pyReplaceGo pat rep s.length s

/-- Python `s.replace(pat, rep)` (argument order of the embedding:
subject first, like the method receiver). -/
def pyReplace (s pat rep : String) : String :=
  ⟨pyReplaceL pat.data rep.data s.data⟩

theorem prefixOf_iff (p s : List Char) : p.isPrefixOf s = true ↔ p <+: s :=
  List.isPrefixOf_iff_prefix

theorem pyReplaceGo_fuel_irrel (pat rep : List Char) :
    ∀ f₁ f₂ s, s.length ≤ f₁ → s.length ≤ f₂ →
      pyReplaceGo pat rep f₁ s = pyReplaceGo pat rep f₂ s := by
  intro f₁
  induction f₁ with
  | zero =>
    intro f₂ s h₁ _
    have hs : s = [] := by
      cases s with
      | nil => rfl
      | cons c cs => simp at h₁
    subst hs
    cases f₂ <;> rfl
  | succ f ih =>
    intro f₂ s h₁ h₂
    cases s with
    | nil => cases f₂ <;> rfl
    | cons c cs =>
      cases f₂ with
      | zero => simp at h₂
      | succ g =>
        simp only [pyReplaceGo]
        by_cases hp : pat.isPrefixOf (c :: cs) = true
        · simp only [hp, if_true]
          have hd : (cs.drop (pat.length - 1)).length ≤ cs.length := by
            simp [List.length_drop]
          have h₁' : (cs.drop (pat.length - 1)).length ≤ f :=
            le_trans hd (by simpa using Nat.lt_succ_iff.mp (Nat.lt_of_lt_of_le (by simp) h₁))
          have h₂' : (cs.drop (pat.length - 1)).length ≤ g :=
            le_trans hd (by simpa using Nat.lt_succ_iff.mp (Nat.lt_of_lt_of_le (by simp) h₂))
          rw [ih _ _ h₁' h₂']
        · have hp' : pat.isPrefixOf (c :: cs) = false := by
            cases hx : pat.isPrefixOf (c :: cs) with
            | false => rfl
            | true => exact absurd hx hp
          simp only [hp', Bool.false_eq_true, if_false]
          have h₁' : cs.length ≤ f := by simpa using h₁
          have h₂' : cs.length ≤ g := by simpa using h₂
          rw [ih _ _ h₁' h₂']

theorem pyReplaceL_nil (pat rep : List Char) : pyReplaceL pat rep [] = [] := rfl

theorem pyReplaceL_cons_pos (pat rep : List Char) (c : Char) (cs : List Char)
    (h : pat <+: (c :: cs)) :
    pyReplaceL pat rep (c :: cs) = rep ++ pyReplaceL pat rep (cs.drop (pat.length - 1)) := by
  have hb : pat.isPrefixOf (c :: cs) = true := (prefixOf_iff pat (c :: cs)).mpr h
  show pyReplaceGo pat rep (cs.length + 1) (c :: cs) = _
  simp only [pyReplaceGo, hb, if_true]
  congr 1
  exact pyReplaceGo_fuel_irrel pat rep cs.length (cs.drop (pat.length - 1)).length _
    (by simp [List.length_drop]) (le_refl _)

theorem pyReplaceL_cons_neg (pat rep : List Char) (c : Char) (cs : List Char)
    (h : ¬ pat <+: (c :: cs)) :
    pyReplaceL pat rep (c :: cs) = c :: pyReplaceL pat rep cs := by
  have hb : pat.isPrefixOf (c :: cs) = false := by
    cases hx : pat.isPrefixOf (c :: cs) with
    | false => rfl
    | true => exact absurd ((prefixOf_iff pat (c :: cs)).mp hx) h
  show pyReplaceGo pat rep (cs.length + 1) (c :: cs) = _
  simp only [pyReplaceGo, hb, Bool.false_eq_true, if_false]
  rfl

/-- If the pattern occurs nowhere in `s`, the replacement leaves `s`
unchanged. -/
theorem pyReplaceL_no_occurrence (pat rep s : List Char) (h : ¬ pat <:+: s) :
    pyReplaceL pat rep s = s := by
  induction s with
  | nil => rfl
  | cons c cs ih =>
    have hp : ¬ pat <+: (c :: cs) := fun hp => h hp.isInfix
    rw [pyReplaceL_cons_neg pat rep c cs hp]
    have hni : ¬ pat <:+: cs := by
      intro hi
      obtain ⟨u, v, huv⟩ := hi
      exact h ⟨c :: u, v, by simp [← huv]⟩
    rw [ih hni]

/-! ### Placeholder patterns `\x7b\x7bkey\x7d\x7d`

The source builds each pattern as an f-string with doubled braces:
`placeholder = f"…"` amounting to `"\x7b\x7b" + key + "\x7d\x7d"`. -/

def patOf (k : List Char) : List Char :=
  '{' :: '{' :: (k ++ ['}', '}'])

/-- A string with no brace characters (a "simple" key or value). -/
def braceFree (s : List Char) : Bool :=
  s.all (fun c => c != '{' && c != '}')

theorem braceFree_mem {s : List Char} (h : braceFree s = true) {c : Char}
    (hc : c ∈ s) : c ≠ '{' ∧ c ≠ '}' := by
  have := List.all_eq_true.mp h c hc
  constructor
  · intro he; subst he; simp at this
  · intro he; subst he; simp at this

theorem patOf_ne_nil (k : List Char) : patOf k ≠ [] := by
  simp [patOf]

/-- Two placeholder patterns with brace-free keys: one is a prefix of
the other (padded by anything) only when the keys agree. -/
theorem key_close_agree {k₁ k₂ : List Char} (h₁ : braceFree k₁ = true)
    (h₂ : braceFree k₂ = true) (s : List Char)
    (hp : (k₁ ++ ['}', '}']) <+: (k₂ ++ ['}', '}'] ++ s)) : k₁ = k₂ := by
  induction k₁ generalizing k₂ with
  | nil =>
    cases k₂ with
    | nil => rfl
    | cons d k₂' =>
      obtain ⟨t, ht⟩ := hp
      have hd : d = '}' := by
        have h := congrArg (fun l => l.head?) ht
        simp at h
        first
        | exact h
        | exact h.symm
      exact absurd hd (braceFree_mem h₂ (by simp)).2
  | cons c k₁' ih =>
    cases k₂ with
    | nil =>
      obtain ⟨t, ht⟩ := hp
      have hc : c = '}' := by
        have h := congrArg (fun l => l.head?) ht
        simp at h
        first
        | exact h
        | exact h.symm
      exact absurd hc (braceFree_mem h₁ (by simp)).2
    | cons d k₂' =>
      obtain ⟨t, ht⟩ := hp
      have hcd : c = d ∧ (k₁' ++ ['}', '}']) ++ t = (k₂' ++ ['}', '}'] ++ s) := by
        constructor
        · have h := congrArg (fun l => l.head?) ht
          simp at h
          first
          | exact h
          | exact h.symm
        · have h := congrArg List.tail ht
          simp at h
          first
          | simpa using h
          | simpa using h.symm
      have hbf₁ : braceFree k₁' = true := by
        simp only [braceFree, List.all_cons, Bool.and_eq_true] at h₁
        exact h₁.2
      have hbf₂ : braceFree k₂' = true := by
        simp only [braceFree, List.all_cons, Bool.and_eq_true] at h₂
        exact h₂.2
      have : k₁' = k₂' := ih hbf₁ hbf₂ ⟨t, by simpa using hcd.2⟩
      rw [hcd.1, this]

/-- A pattern is a prefix of a (padded) pattern only for equal keys. -/
theorem patOf_starts_patOf {k₁ k₂ : List Char} (h₁ : braceFree k₁ = true)
    (h₂ : braceFree k₂ = true) (s : List Char)
    (hp : patOf k₁ <+: (patOf k₂ ++ s)) : k₁ = k₂ := by
  apply key_close_agree h₁ h₂ s
  obtain ⟨t, ht⟩ := hp
  refine ⟨t, ?_⟩
  have := congrArg (fun l => l.tail.tail) ht
  simpa [patOf] using this

/-- No pattern match can start at the second brace of a pattern
occurrence. -/
theorem patOf_inner_no_match {k k' : List Char} (h' : braceFree k' = true)
    (s : List Char) : ¬ patOf k <+: ('{' :: (k' ++ ['}', '}'] ++ s)) := by
  intro hp
  obtain ⟨t, ht⟩ := hp
  have := congrArg (fun l => l.tail.head?) ht
  simp [patOf] at this
  cases k' with
  | nil => simp at this
  | cons d k'' =>
    have hd : d = '{' := by simpa using this.symm
    exact absurd hd (braceFree_mem h' (by simp)).1

/-- Walking over every char of `x` when none of them can start a
pattern match (`patOf` always begins with a brace). -/
theorem pyReplaceL_skip {x : List Char} (hx : ∀ c ∈ x, c ≠ '{')
    (k rep s : List Char) :
    pyReplaceL (patOf k) rep (x ++ s) = x ++ pyReplaceL (patOf k) rep s := by
  induction x with
  | nil => rfl
  | cons c x' ih =>
    have hnp : ¬ patOf k <+: (c :: (x' ++ s)) := by
      intro hp
      obtain ⟨t, ht⟩ := hp
      have : '{' = c := by
        have := congrArg (fun l => l.head?) ht
        simpa [patOf] using this
      exact hx c (by simp) this.symm
    rw [List.cons_append, pyReplaceL_cons_neg _ _ _ _ hnp,
      ih (fun c hc => hx c (by simp [hc]))]
    simp

/-- A nonempty proper suffix of a pattern (brace-free key) can never be
a prefix of anything starting with two braces. -/
theorem suffix_patOf_no_match {k' : List Char} (h' : braceFree k' = true)
    {t : List Char} (hs : t <:+ patOf k') (hne : t ≠ []) (hfull : t ≠ patOf k')
    (r : List Char) : ¬ t <+: ('{' :: '{' :: r) := by
  intro hp
  have hcases : t = patOf k' ∨ t <:+ ('{' :: (k' ++ ['}', '}'])) := by
    simpa [patOf] using (List.suffix_cons_iff).mp hs
  rcases hcases with hfl | hs1
  · exact hfull hfl
  have hcases2 : t = '{' :: (k' ++ ['}', '}']) ∨ t <:+ (k' ++ ['}', '}']) := by
    simpa using (List.suffix_cons_iff).mp hs1
  rcases hcases2 with heq | hs2
  · subst heq
    obtain ⟨u, hu⟩ := hp
    have : (k' ++ ['}', '}']).head? = some '{' := by
      have := congrArg (fun l => l.tail.head?) hu
      simpa using this
    cases k' with
    | nil => simp at this
    | cons d k'' =>
      have hd : d = '{' := by simpa using this
      exact absurd hd (braceFree_mem h' (by simp)).1
  · cases t with
    | nil => exact hne rfl
    | cons c t' =>
      have hc : c = '{' := by
        obtain ⟨u, hu⟩ := hp
        have h := congrArg (fun l => l.head?) hu
        simp at h
        first
        | exact h
        | exact h.symm
      have hmem : c ∈ k' ++ ['}', '}'] := hs2.subset (by simp)
      rcases List.mem_append.mp hmem with hmk | hmb
      · exact absurd hc (braceFree_mem h' hmk).1
      · have : c = '}' := by simpa using hmb
        rw [this] at hc
        simp at hc

/-! ### Python values

The request body is decoded JSON: a dict whose values are strings,
numbers, booleans, null, lists or dicts.  `PyVal` mirrors those shapes;
a float is carried by its textual representation only (no claim in
scope computes with floats).  `pyRepr` models Python `repr()` as used
for elements inside a list or dict (string escaping inside `repr` is
not modelled beyond the quoting); `pyStr` models `str(value)`, which
differs from `repr` only on strings. -/

inductive PyVal where
  | vStr : String → PyVal
  | vInt : Int → PyVal
  | vBool : Bool → PyVal
  | vFloat : String → PyVal
  | vNone : PyVal
  | vList : List PyVal → PyVal
  | vDict : List (String × PyVal) → PyVal

mutual

def pyRepr : PyVal → String
  | .vStr s => "\x27" ++ s ++ "\x27"
  | .vInt n => toString n
  | .vBool b => if b then "True" else "False"
  | .vFloat r => r
  | .vNone => "None"
  | .vList l => "[" ++ ", ".intercalate (pyReprList l) ++ "]"
  | .vDict d => "\x7b" ++ ", ".intercalate (pyReprDict d) ++ "\x7d"

def pyReprList : List PyVal → List String
  | [] => []
  | v :: vs => pyRepr v :: pyReprList vs

def pyReprDict : List (String × PyVal) → List String
  | [] => []
  | kv :: kvs => ("\x27" ++ kv.1 ++ "\x27: " ++ pyRepr kv.2) :: pyReprDict kvs

end

/-- Python `str(value)`. -/
def pyStr : PyVal → String
  | .vStr s => s
  | v => pyRepr v

/-- Python `isinstance(value, (str, int, float))`: Python `bool` is a subclass
of `int`, so booleans pass this check. -/
def isStrIntFloat : PyVal → Bool
  | .vStr _ => true
  | .vInt _ => true
  | .vBool _ => true
  | .vFloat _ => true
  | _ => false

/-- The f-string `placeholder` of the source: two literal braces, the
key, two literal braces. -/
def placeholderOf (k : String) : String := "\x7b\x7b" ++ k ++ "\x7d\x7d"

theorem placeholderOf_data (k : String) : (placeholderOf k).data = patOf k.data := by
  show ("\x7b\x7b" ++ k ++ "\x7d\x7d").data = _
  rw [String.data_append, String.data_append]
  rfl

/-! ### `replace_placeholders_in_text` (app.py lines 168-181)

The loop body mutates `full_text` only for keys other than
`deliverables` whose value is a `str`, `int` or `float`; afterwards the
paragraph is rebuilt from `full_text` when it changed, so the net
effect on the paragraph's text is the folded value itself. -/

def replace_placeholders_in_text (text : String) (data : List (String × PyVal)) : String :=
  data.foldl
    (fun full_text kv =>
      if kv.1 != "deliverables" && isStrIntFloat kv.2 then
        pyReplace full_text (placeholderOf kv.1) (pyStr kv.2)
      else full_text)
    text

/-! ### `process_tables` (app.py lines 183-226)

A table is its column count (the grid python-docx extends on
`add_row()`) plus the list of rows, each row the list of its cells'
text.  The embedding follows the imperative structure of the source:
collect marker-row indices and the `(index, cell texts)` pairs to add,
then erase the collected indices in reverse order, then append one row
per collected pair, filling only the cells the new row has. -/

def repeatMarker : String := "\x7b\x7b!REPEATROW\x7d\x7d"

/-- Python `' '.join(cell.text for cell in row.cells)`. -/
def rowJoin (row : List String) : String := " ".intercalate row

/-- The membership test `'...REPEATROW...' in row_text`. -/
def hasMarker (row : List String) : Bool :=
  decide (repeatMarker.data <:+: (rowJoin row).data)

/-- Marker removal followed by the per-deliverable substitution loop:
`cell_text.replace('\x7b\x7b!REPEATROW\x7d\x7d', '')`, then one
`replace` per key of the deliverable (no type filter, `str(value)`). -/
def expandCell (cellText : String) (d : List (String × PyVal)) : String :=
  d.foldl
    (fun cell_text kv => pyReplace cell_text (placeholderOf kv.1) (pyStr kv.2))
    (pyReplace cellText repeatMarker "")

/-- Builds `new_row_data`: the expanded cell texts of one synthesized row. -/
def expandRow (row : List String) (d : List (String × PyVal)) : List String :=
  row.map (fun c => expandCell c d)

structure Table where
  ncols : Nat
  rows : List (List String)

/-- Models `table.add_row()` then `new_row.cells[j].text = cell_text` for
`j < len(new_row.cells)`: the fresh row has one (empty) cell per grid
column; surplus synthesized values are discarded. -/
def addRowFit (ncols : Nat) (cells : List String) : List String :=
  (List.range ncols).map (fun j => cells.getD j "")

def process_table (t : Table) (deliverables : List (List (String × PyVal))) : Table :=
  let rows_to_remove :=
    (List.range t.rows.length).filter (fun i => hasMarker (t.rows.getD i []))
  let rows_to_add :=
    t.rows.enum.flatMap
      (fun ir =>
        if hasMarker ir.2 then deliverables.map (fun d => (ir.1, expandRow ir.2 d))
        else [])
  let after_removal :=
    rows_to_remove.reverse.foldl (fun rs i => rs.eraseIdx i) t.rows
  ⟨t.ncols, after_removal ++ rows_to_add.map (fun p => addRowFit t.ncols p.2)⟩

/-- Models `data.get('deliverables', [])` followed by iterating the element
dicts.  (If the key maps to a non-list, or an element is not a dict,
the Python source raises inside the request handler; no claim in scope
exercises that, and the embedding returns the empty collection /
element there.) -/
def getDeliverables (data : List (String × PyVal)) : List (List (String × PyVal)) :=
  match data.find? (fun kv => kv.1 == "deliverables") with
  | some kv =>
    match kv.2 with
    | .vList l => l.map (fun v => match v with | .vDict d => d | _ => [])
    | _ => []
  | none => []

def process_tables (tables : List Table) (data : List (String × PyVal)) : List Table :=
  tables.map (fun t => process_table t (getDeliverables data))

/-- The renderer core of `generate_document` (app.py lines 62-67):
substitute the whole request body into every paragraph, then process
every table against the body's `deliverables`. -/
structure DocX where
  paragraphs : List String
  tables : List Table

def generate_document_core (doc : DocX) (data : List (String × PyVal)) : DocX :=
  ⟨doc.paragraphs.map (fun p => replace_placeholders_in_text p data),
    process_tables doc.tables data⟩

/-! ### Declarative characterization of `process_table`

Erasing the collected marker indices highest-first keeps the remaining
rows exactly as a filter, and the collected `(index, row)` pairs,
projected to rows, are the marker rows in table order, each repeated
once per deliverable. -/

theorem foldl_eraseIdx_map_succ (is : List Nat) (x : α) (xs : List α) :
    (is.map Nat.succ).foldl (fun rs i => rs.eraseIdx i) (x :: xs)
      = x :: is.foldl (fun rs i => rs.eraseIdx i) xs := by
  induction is generalizing xs with
  | nil => rfl
  | cons i is ih =>
    simp only [List.map_cons, List.foldl_cons, List.eraseIdx_cons_succ]
    exact ih (xs.eraseIdx i)

theorem erase_marked (l : List α) (p : α → Bool) (d : α) :
    (((List.range l.length).filter (fun i => p (l.getD i d))).reverse).foldl
        (fun rs i => rs.eraseIdx i) l
      = l.filter (fun x => !p x) := by
  induction l with
  | nil => rfl
  | cons x xs ih =>
    have hrange : List.range (x :: xs).length = 0 :: (List.range xs.length).map Nat.succ := by
      simpa using List.range_succ_eq_map xs.length
    rw [hrange]
    have hcomp :
        ((List.range xs.length).map Nat.succ).filter
            (fun i => p ((x :: xs).getD i d))
          = ((List.range xs.length).filter (fun i => p (xs.getD i d))).map Nat.succ := by
      rw [List.filter_map]
      congr 1
    by_cases hx : p x = true
    · simp only [List.filter_cons, List.getD_cons_zero, hx, if_true, hcomp]
      rw [List.reverse_cons, List.foldl_append, ← List.map_reverse,
        foldl_eraseIdx_map_succ, ih]
      simp [List.filter_cons, hx]
    · have hx' : p x = false := by
        cases hpx : p x with
        | false => rfl
        | true => exact absurd hpx hx
      simp only [List.filter_cons, List.getD_cons_zero, hx', Bool.false_eq_true, if_false, hcomp]
      rw [← List.map_reverse, foldl_eraseIdx_map_succ, ih]
      simp [List.filter_cons, hx']

theorem rows_to_add_eq (ds : List (List (String × PyVal))) (n : Nat) :
    ∀ (l : List (List String)) (k : Nat),
      ((List.enumFrom k l).flatMap
          (fun ir =>
            if hasMarker ir.2 then ds.map (fun d => (ir.1, expandRow ir.2 d))
            else [])).map (fun p => addRowFit n p.2)
        = (l.filter hasMarker).flatMap
            (fun r => ds.map (fun d => addRowFit n (expandRow r d))) := by
  intro l
  induction l with
  | nil => intro k; rfl
  | cons r l' ih =>
    intro k
    simp only [List.enumFrom_cons, List.flatMap_cons, List.map_append, List.filter_cons]
    by_cases hr : hasMarker r = true
    · simp only [hr, if_true, List.flatMap_cons, List.map_map, ih (k + 1)]
      congr 1
    · have hr' : hasMarker r = false := by
        cases hx : hasMarker r with
        | false => rfl
        | true => exact absurd hx hr
      simp only [hr', Bool.false_eq_true, if_false, List.map_nil, List.nil_append,
        ih (k + 1)]

/-- The net effect of `process_table`: the non-marker rows survive in
order, and one expanded row per (marker row, deliverable) pair is
appended at the end of the table, grouped by marker row in table
order. -/
theorem process_table_rows (t : Table) (ds : List (List (String × PyVal))) :
    process_table t ds
      = ⟨t.ncols,
          t.rows.filter (fun r => !hasMarker r)
            ++ (t.rows.filter hasMarker).flatMap
                (fun r => ds.map (fun d => addRowFit t.ncols (expandRow r d)))⟩ := by
  show Table.mk t.ncols _ = _
  congr 1
  rw [erase_marked t.rows hasMarker []]
  congr 1
  exact rows_to_add_eq ds t.ncols t.rows 0

/-- Slicing a `flatMap` whose pieces all have the same length. -/
theorem flatMap_uniform_slice (l : List α) (f : α → List β) (m : Nat)
    (hf : ∀ x ∈ l, (f x).length = m) :
    ∀ (k : Nat) (hk : k < l.length),
      ((l.flatMap f).drop (k * m)).take m = f (l.get ⟨k, hk⟩) := by
  induction l with
  | nil => intro k hk; simp at hk
  | cons x xs ih =>
    intro k hk
    cases k with
    | zero =>
      simp only [List.flatMap_cons, Nat.zero_mul, List.drop_zero]
      rw [← hf x (by simp), List.take_left]
      rfl
    | succ k' =>
      simp only [List.flatMap_cons]
      have hm : (k' + 1) * m = (f x).length + k' * m := by
        rw [hf x (by simp)]
        ring
      rw [hm, List.drop_append]
      exact ih (fun y hy => hf y (by simp [hy])) k' (by simpa using hk)

/-- C1: for a table containing exactly one marker row, Table Row
Expansion deletes that row and synthesizes one row per deliverable
(none for an empty collection): the output has
`original row count - 1 + N` rows, and the remaining rows are exactly
the non-marker rows of the input, unchanged and in order. -/
theorem row_count_law (t : Table) (ds : List (List (String × PyVal)))
    (h : (t.rows.filter hasMarker).length = 1) :
    (process_table t ds).rows.length = t.rows.length - 1 + ds.length ∧
    ∃ fresh,
      (process_table t ds).rows = t.rows.filter (fun r => !hasMarker r) ++ fresh ∧
      fresh.length = ds.length := by
  obtain ⟨r, hr⟩ := List.length_eq_one.mp h
  have hrows : (process_table t ds).rows
      = t.rows.filter (fun r => !hasMarker r)
        ++ (t.rows.filter hasMarker).flatMap
            (fun r => ds.map (fun d => addRowFit t.ncols (expandRow r d))) := by
    rw [process_table_rows]
  have hkeep : (t.rows.filter (fun r => !hasMarker r)).length = t.rows.length - 1 := by
    have htot := List.length_eq_length_filter_add (l := t.rows) hasMarker
    omega
  have hfreshlen :
      ((t.rows.filter hasMarker).flatMap
          (fun r => ds.map (fun d => addRowFit t.ncols (expandRow r d)))).length
        = ds.length := by
    rw [hr]
    simp
  constructor
  · rw [hrows, List.length_append, hkeep, hfreshlen]
  · exact ⟨_, hrows, hfreshlen⟩

theorem row_count_law_witness :
    (((Table.mk 1 [["head"], ["\x7b\x7bitem\x7d\x7d \x7b\x7b!REPEATROW\x7d\x7d"]]).rows.filter
        hasMarker).length = 1) ∧
    ((process_table (Table.mk 1 [["head"], ["\x7b\x7bitem\x7d\x7d \x7b\x7b!REPEATROW\x7d\x7d"]])
        [[("item", .vStr "A")], [("item", .vStr "B")]]).rows.length = 2 - 1 + 2 ∧
      ∃ fresh,
        (process_table (Table.mk 1 [["head"], ["\x7b\x7bitem\x7d\x7d \x7b\x7b!REPEATROW\x7d\x7d"]])
            [[("item", .vStr "A")], [("item", .vStr "B")]]).rows
          = (Table.mk 1 [["head"], ["\x7b\x7bitem\x7d\x7d \x7b\x7b!REPEATROW\x7d\x7d"]]).rows.filter
              (fun r => !hasMarker r) ++ fresh ∧
        fresh.length = 2) :=
  ⟨by decide,
    row_count_law (Table.mk 1 [["head"], ["\x7b\x7bitem\x7d\x7d \x7b\x7b!REPEATROW\x7d\x7d"]])
      [[("item", .vStr "A")], [("item", .vStr "B")]] (by decide)⟩

/-- C2: substituting the record `name ↦ "Bob"` into the paragraph
text `Hello \x7b\x7bname\x7d\x7d` yields `Hello Bob`. -/
theorem single_substitution_exactness :
    replace_placeholders_in_text "Hello \x7b\x7bname\x7d\x7d" [("name", .vStr "Bob")]
      = "Hello Bob" := by
  decide

/-- C7: a table with no marker row is returned structurally and
textually identical: same column grid, same rows, no cell rewritten. -/
theorem non_repeating_table_untouched (t : Table) (ds : List (List (String × PyVal)))
    (h : ∀ r ∈ t.rows, hasMarker r = false) :
    process_table t ds = t := by
  obtain ⟨n, rows⟩ := t
  rw [process_table_rows]
  have h1 : rows.filter (fun r => !hasMarker r) = rows :=
    List.filter_eq_self.mpr (fun a ha => by simp [h a ha])
  have h2 : rows.filter hasMarker = [] :=
    List.filter_eq_nil_iff.mpr (fun a ha => by simp [h a ha])
  simp only at h1 h2 ⊢
  rw [h1, h2]
  simp

theorem non_repeating_table_untouched_witness :
    (∀ r ∈ (Table.mk 2 [["a", "\x7b\x7bx\x7d\x7d"], ["b", "c"]]).rows, hasMarker r = false) ∧
    process_table (Table.mk 2 [["a", "\x7b\x7bx\x7d\x7d"], ["b", "c"]])
        [[("x", .vStr "V")]]
      = Table.mk 2 [["a", "\x7b\x7bx\x7d\x7d"], ["b", "c"]] :=
  ⟨by decide,
    non_repeating_table_untouched (Table.mk 2 [["a", "\x7b\x7bx\x7d\x7d"], ["b", "c"]])
      [[("x", .vStr "V")]] (by decide)⟩

/-- C8: with several marker rows in one table, each marker row is
expanded independently and the synthesized groups appear after the kept
rows in the same relative order as their source marker rows: the `k`-th
group of `N` consecutive output rows is exactly the expansion of the
`k`-th marker row (in table order). -/
theorem order_preservation (t : Table) (ds : List (List (String × PyVal)))
    (k : Nat) (hk : k < (t.rows.filter hasMarker).length) :
    (((process_table t ds).rows.drop
          ((t.rows.filter (fun r => !hasMarker r)).length + k * ds.length)).take ds.length)
      = ds.map (fun d =>
          addRowFit t.ncols (expandRow ((t.rows.filter hasMarker).get ⟨k, hk⟩) d)) := by
  have hrows : (process_table t ds).rows
      = t.rows.filter (fun r => !hasMarker r)
        ++ (t.rows.filter hasMarker).flatMap
            (fun r => ds.map (fun d => addRowFit t.ncols (expandRow r d))) := by
    rw [process_table_rows]
  rw [hrows, List.drop_append]
  exact flatMap_uniform_slice (t.rows.filter hasMarker)
    (fun r => ds.map (fun d => addRowFit t.ncols (expandRow r d))) ds.length
    (fun x _ => by simp) k hk

theorem order_preservation_witness :
    (1 < ((Table.mk 1
        [["\x7b\x7ba\x7d\x7d\x7b\x7b!REPEATROW\x7d\x7d"], ["mid"],
          ["\x7b\x7bb\x7d\x7d\x7b\x7b!REPEATROW\x7d\x7d"]]).rows.filter hasMarker).length) ∧
    ∀ hk : 1 < ((Table.mk 1
        [["\x7b\x7ba\x7d\x7d\x7b\x7b!REPEATROW\x7d\x7d"], ["mid"],
          ["\x7b\x7bb\x7d\x7d\x7b\x7b!REPEATROW\x7d\x7d"]]).rows.filter hasMarker).length,
      (((process_table (Table.mk 1
            [["\x7b\x7ba\x7d\x7d\x7b\x7b!REPEATROW\x7d\x7d"], ["mid"],
              ["\x7b\x7bb\x7d\x7d\x7b\x7b!REPEATROW\x7d\x7d"]])
          [[("a", .vStr "1"), ("b", .vStr "2")]]).rows.drop
            (((Table.mk 1
              [["\x7b\x7ba\x7d\x7d\x7b\x7b!REPEATROW\x7d\x7d"], ["mid"],
                ["\x7b\x7bb\x7d\x7d\x7b\x7b!REPEATROW\x7d\x7d"]]).rows.filter
                (fun r => !hasMarker r)).length + 1 * 1)).take 1
        = [[("a", .vStr "1"), ("b", .vStr "2")]].map (fun d =>
            addRowFit 1 (expandRow (((Table.mk 1
              [["\x7b\x7ba\x7d\x7d\x7b\x7b!REPEATROW\x7d\x7d"], ["mid"],
                ["\x7b\x7bb\x7d\x7d\x7b\x7b!REPEATROW\x7d\x7d"]]).rows.filter
                  hasMarker).get ⟨1, hk⟩) d))) :=
  ⟨by decide,
    fun hk => order_preservation (Table.mk 1
      [["\x7b\x7ba\x7d\x7d\x7b\x7b!REPEATROW\x7d\x7d"], ["mid"],
        ["\x7b\x7bb\x7d\x7d\x7b\x7b!REPEATROW\x7d\x7d"]])
      [[("a", .vStr "1"), ("b", .vStr "2")]] 1 hk⟩

/-! ### Marker reappearance (C3) -/

/-- Counterexample to "no output row ever contains the literal token":
the marker is stripped from the template cell *before* the per-element
substitution, so a deliverable value that itself contains the token
re-introduces it into the synthesized row. -/
theorem marker_reappears_counterexample :
    (process_table (Table.mk 1 [["\x7b\x7bx\x7d\x7d\x7b\x7b!REPEATROW\x7d\x7d"]])
        [[("x", .vStr "\x7b\x7b!REPEATROW\x7d\x7d")]]).rows
      = [["\x7b\x7b!REPEATROW\x7d\x7d"]] ∧
    hasMarker ["\x7b\x7b!REPEATROW\x7d\x7d"] = true := by
  constructor
  · rfl
  · decide

/-- C3 amended: every output row is either an original row that
carried no marker, or a synthesized row obtained by stripping the
marker from the template cells first and only then substituting one
deliverable element (whose values may re-introduce the token). -/
theorem marker_removal_amended (t : Table) (ds : List (List (String × PyVal)))
    (r : List String) (hr : r ∈ (process_table t ds).rows) :
    (r ∈ t.rows ∧ hasMarker r = false) ∨
    (∃ tr, tr ∈ t.rows ∧ hasMarker tr = true ∧ ∃ d, d ∈ ds ∧
      r = addRowFit t.ncols (tr.map (fun c => expandCell c d))) := by
  rw [process_table_rows] at hr
  rcases List.mem_append.mp hr with hkeep | hnew
  · left
    have := List.mem_filter.mp hkeep
    refine ⟨this.1, ?_⟩
    have hb := this.2
    cases hx : hasMarker r with
    | false => rfl
    | true => rw [hx] at hb; simp at hb
  · right
    obtain ⟨tr, htr, hrmem⟩ := List.mem_flatMap.mp hnew
    obtain ⟨d, hd, hrd⟩ := List.mem_map.mp hrmem
    have htrf := List.mem_filter.mp htr
    exact ⟨tr, htrf.1, htrf.2, d, hd, hrd.symm⟩

theorem marker_removal_amended_witness :
    (["A"] ∈ (process_table
        (Table.mk 1 [["\x7b\x7bitem\x7d\x7d\x7b\x7b!REPEATROW\x7d\x7d"]])
        [[("item", .vStr "A")]]).rows) ∧
    ((["A"] ∈ (Table.mk 1 [["\x7b\x7bitem\x7d\x7d\x7b\x7b!REPEATROW\x7d\x7d"]]).rows ∧
        hasMarker ["A"] = false) ∨
      (∃ tr, tr ∈ (Table.mk 1 [["\x7b\x7bitem\x7d\x7d\x7b\x7b!REPEATROW\x7d\x7d"]]).rows ∧
        hasMarker tr = true ∧ ∃ d, d ∈ [[("item", PyVal.vStr "A")]] ∧
        ["A"] = addRowFit 1 (tr.map (fun c => expandCell c d)))) :=
  ⟨by decide,
    marker_removal_amended
      (Table.mk 1 [["\x7b\x7bitem\x7d\x7d\x7b\x7b!REPEATROW\x7d\x7d"]])
      [[("item", .vStr "A")]] ["A"] (by decide)⟩

/-! ### String-level substitution lemmas -/

/-- A pattern with no occurrence in the subject leaves it unchanged. -/
theorem pyReplace_self_no_occurrence (t p r : String)
    (h : ¬ p.data <:+: t.data) : pyReplace t p r = t := by
  show String.mk _ = t
  rw [pyReplaceL_no_occurrence _ _ _ h]

/-- Replacing a nonempty pattern inside itself yields the replacement. -/
theorem pyReplaceL_self (p r : List Char) (hp : p ≠ []) :
    pyReplaceL p r p = r := by
  cases p with
  | nil => exact absurd rfl hp
  | cons c cs =>
    rw [pyReplaceL_cons_pos _ _ _ _ (List.prefix_refl _)]
    have hd : cs.drop ((c :: cs).length - 1) = [] := by
      simp
    rw [hd, pyReplaceL_nil, List.append_nil]

theorem pyReplace_whole (p r : String) (hp : p.data ≠ []) :
    pyReplace p p r = r := by
  show String.mk _ = r
  rw [pyReplaceL_self p.data r.data hp]

/-- The fold `replace_placeholders_in_text` is the identity when no key's
placeholder occurs in the text. -/
theorem replace_placeholders_id (data : List (String × PyVal)) :
    ∀ text : String,
      (∀ kv ∈ data, ¬ (placeholderOf kv.1).data <:+: text.data) →
      replace_placeholders_in_text text data = text := by
  induction data with
  | nil => intro text _; rfl
  | cons kv rest ih =>
    intro text h
    show List.foldl _ _ (kv :: rest) = text
    rw [List.foldl_cons]
    have hstep :
        (if kv.1 != "deliverables" && isStrIntFloat kv.2 then
            pyReplace text (placeholderOf kv.1) (pyStr kv.2)
          else text) = text := by
      by_cases hc : (kv.1 != "deliverables" && isStrIntFloat kv.2) = true
      · rw [if_pos hc]
        exact pyReplace_self_no_occurrence text _ _ (h kv (by simp))
      · rw [if_neg hc]
    rw [hstep]
    exact ih text (fun kv' hkv' => h kv' (by simp [hkv']))

/-- The per-element fold of `process_tables` is the identity on a cell
whose text contains neither the marker nor any element key's
placeholder. -/
theorem expandCell_id (d : List (String × PyVal)) (c : String)
    (hm : ¬ repeatMarker.data <:+: c.data)
    (h : ∀ kv ∈ d, ¬ (placeholderOf kv.1).data <:+: c.data) :
    expandCell c d = c := by
  show List.foldl _ (pyReplace c repeatMarker "") d = c
  rw [pyReplace_self_no_occurrence c _ _ hm]
  induction d with
  | nil => rfl
  | cons kv rest ih =>
    rw [List.foldl_cons,
      pyReplace_self_no_occurrence c _ _ (h kv (by simp))]
    exact ih (fun kv' hkv' => h kv' (by simp [hkv']))

/-- C4: expanded rows see only the per-element record.  Table
processing depends on the request body only through its `deliverables`
collection, so two bodies that differ in any top-level scalar produce
identical expanded tables; and a placeholder (such as
`\x7b\x7btitle\x7d\x7d`) naming a field absent from the element mapping
survives unresolved in every expanded cell built from it. -/
theorem field_isolation :
    (∀ (tables : List Table) (data data' : List (String × PyVal)),
        getDeliverables data = getDeliverables data' →
        process_tables tables data = process_tables tables data') ∧
    (∀ d : List (String × PyVal),
        (∀ kv ∈ d,
          ¬ (placeholderOf kv.1).data <:+: ("\x7b\x7btitle\x7d\x7d" : String).data) →
        expandCell "\x7b\x7btitle\x7d\x7d" d = "\x7b\x7btitle\x7d\x7d") := by
  constructor
  · intro tables data data' h
    show tables.map _ = tables.map _
    rw [h]
  · intro d h
    exact expandCell_id d _ (by decide) h

theorem field_isolation_witness :
    process_tables [Table.mk 1 [["\x7b\x7bitem\x7d\x7d \x7b\x7b!REPEATROW\x7d\x7d"]]]
        [("title", .vStr "X"),
          ("deliverables", .vList [.vDict [("item", .vStr "A")]])]
      = process_tables [Table.mk 1 [["\x7b\x7bitem\x7d\x7d \x7b\x7b!REPEATROW\x7d\x7d"]]]
          [("title", .vStr "Y"),
            ("deliverables", .vList [.vDict [("item", .vStr "A")]])] ∧
    expandCell "\x7b\x7btitle\x7d\x7d" [("item", .vStr "A")] = "\x7b\x7btitle\x7d\x7d" :=
  ⟨field_isolation.1 [Table.mk 1 [["\x7b\x7bitem\x7d\x7d \x7b\x7b!REPEATROW\x7d\x7d"]]]
      [("title", .vStr "X"), ("deliverables", .vList [.vDict [("item", .vStr "A")]])]
      [("title", .vStr "Y"), ("deliverables", .vList [.vDict [("item", .vStr "A")]])]
      rfl,
    field_isolation.2 [("item", .vStr "A")] (by decide)⟩

/-- C9: paragraph substitution receives the whole request body, so
any top-level key other than `deliverables` whose value passes
`isinstance(value, (str, int, float))` — which booleans do, `bool`
being a subclass of `int` — is substituted; in particular the control
keys `templateId` and `pdf` are substituted, a boolean rendering as
`True`/`False`. -/
theorem request_body_is_the_record :
    (∀ (k : String) (v : PyVal), k ≠ "deliverables" → isStrIntFloat v = true →
        replace_placeholders_in_text (placeholderOf k) [(k, v)] = pyStr v) ∧
    (∀ b : Bool, isStrIntFloat (.vBool b) = true ∧
        pyStr (.vBool b) = if b then "True" else "False") ∧
    generate_document_core
        (DocX.mk ["\x7b\x7btemplateId\x7d\x7d and \x7b\x7bpdf\x7d\x7d"] [])
        [("templateId", .vStr "tmpl-1"), ("pdf", .vBool true),
          ("deliverables", .vList [])]
      = DocX.mk ["tmpl-1 and True"] [] := by
  refine ⟨?_, fun b => ⟨rfl, rfl⟩, by rfl⟩
  intro k v hk hv
  show List.foldl _ _ [(k, v)] = pyStr v
  rw [List.foldl_cons, List.foldl_nil]
  have hcond : (k != "deliverables" && isStrIntFloat v) = true := by
    simp only [Bool.and_eq_true, bne_iff_ne]
    exact ⟨hk, hv⟩
  rw [if_pos hcond]
  exact pyReplace_whole _ _ (by rw [placeholderOf_data]; exact patOf_ne_nil _)

theorem request_body_is_the_record_witness :
    replace_placeholders_in_text (placeholderOf "qty") [("qty", .vInt 3)]
      = pyStr (.vInt 3) :=
  request_body_is_the_record.1 "qty" (.vInt 3) (by decide) (by decide)

/-- C10: the per-element substitution inside table expansion has no
type filter: any value — list, dict, `None`, boolean — is rendered with
`str()` and substituted, whereas the paragraph-level substitution skips
any value that is not a `str`, `int` or `float`. -/
theorem element_substitution_untyped :
    (∀ (k : String) (v : PyVal),
        ¬ repeatMarker.data <:+: (placeholderOf k).data →
        expandCell (placeholderOf k) [(k, v)] = pyStr v) ∧
    (∀ (k : String) (v : PyVal), isStrIntFloat v = false →
        replace_placeholders_in_text (placeholderOf k) [(k, v)] = placeholderOf k) := by
  constructor
  · intro k v hm
    show List.foldl _ (pyReplace (placeholderOf k) repeatMarker "") [(k, v)] = pyStr v
    rw [pyReplace_self_no_occurrence _ _ _ hm, List.foldl_cons, List.foldl_nil]
    exact pyReplace_whole _ _ (by rw [placeholderOf_data]; exact patOf_ne_nil _)
  · intro k v hv
    show List.foldl _ _ [(k, v)] = placeholderOf k
    rw [List.foldl_cons, List.foldl_nil]
    have hcond : (k != "deliverables" && isStrIntFloat v) = false := by
      rw [hv]
      simp
    rw [hcond]
    simp

theorem element_substitution_untyped_witness :
    expandCell (placeholderOf "x") [("x", PyVal.vNone)] = "None" ∧
    expandCell (placeholderOf "y") [("y", .vList [.vInt 1, .vStr "a"])] = "[1, \x27a\x27]" ∧
    replace_placeholders_in_text (placeholderOf "y") [("y", .vList [.vInt 1])]
      = placeholderOf "y" :=
  ⟨element_substitution_untyped.1 "x" PyVal.vNone (by decide),
    element_substitution_untyped.1 "y" (.vList [.vInt 1, .vStr "a"]) (by decide),
    element_substitution_untyped.2 "y" (.vList [.vInt 1]) (by decide)⟩

/-! ### Preservation of unmatched placeholders (C6) -/

/-- A match at the very front of the subject emits the replacement and
continues after the matched occurrence. -/
theorem pyReplaceL_front_match (p v t : List Char) (hp : p ≠ []) :
    pyReplaceL p v (p ++ t) = v ++ pyReplaceL p v t := by
  cases p with
  | nil => exact absurd rfl hp
  | cons c cs =>
    rw [List.cons_append, pyReplaceL_cons_pos _ _ _ _ (by exact ⟨t, by simp⟩)]
    have hd : (cs ++ t).drop ((c :: cs).length - 1) = t := by
      simpa using List.drop_left cs t
    rw [hd]

/-- Scanning straight through a whole placeholder occurrence whose key
differs from the pattern's: no match can start inside it. -/
theorem pyReplaceL_skip_patOf (kp v : List Char) {kt : List Char}
    (hkt : braceFree kt = true) (s : List Char)
    (hnp : ¬ patOf kp <+: (patOf kt ++ s)) :
    pyReplaceL (patOf kp) v (patOf kt ++ s) = patOf kt ++ pyReplaceL (patOf kp) v s := by
  have hshape : patOf kt ++ s = '{' :: ('{' :: ((kt ++ ['}', '}']) ++ s)) := by
    simp [patOf]
  rw [hshape]
  have h1 : ¬ patOf kp <+: ('{' :: ('{' :: ((kt ++ ['}', '}']) ++ s))) := by
    rw [← hshape]; exact hnp
  rw [pyReplaceL_cons_neg _ _ _ _ h1]
  have h2 : ¬ patOf kp <+: ('{' :: ((kt ++ ['}', '}']) ++ s)) := by
    have := patOf_inner_no_match (k := kp) hkt s
    simpa [List.append_assoc] using this
  rw [pyReplaceL_cons_neg _ _ _ _ h2]
  have h3 : ∀ c ∈ kt ++ ['}', '}'], c ≠ '{' := by
    intro c hc
    rcases List.mem_append.mp hc with hm | hm
    · exact (braceFree_mem hkt hm).1
    · have : c = '}' := by simpa using hm
      rw [this]; decide
  rw [pyReplaceL_skip h3]
  simp [patOf]

/-- Replacing the placeholder of key `kp` in a text containing an
occurrence of the placeholder of a different brace-free key `kt` keeps
that occurrence: matches of one pattern can never overlap an occurrence
of the other. -/
theorem pyReplaceL_preserves_patOf {kp kt : List Char} (hkp : braceFree kp = true)
    (hkt : braceFree kt = true) (hne : kp ≠ kt) (v : List Char) :
    ∀ (n : Nat) (a b : List Char), (a ++ (patOf kt ++ b)).length ≤ n →
      ∃ a' b', pyReplaceL (patOf kp) v (a ++ (patOf kt ++ b)) = a' ++ (patOf kt ++ b') := by
  intro n
  induction n with
  | zero =>
    intro a b h
    exfalso
    simp [patOf, List.length_append] at h
  | succ n ih =>
    intro a b hlen
    by_cases hpre : patOf kp <+: (a ++ (patOf kt ++ b))
    · cases a with
      | nil =>
        exfalso
        simp only [List.nil_append] at hpre
        exact hne (patOf_starts_patOf hkp hkt b hpre)
      | cons c a' =>
        obtain ⟨rest, hrest⟩ := hpre
        rcases List.append_eq_append_iff.mp hrest with ⟨w, hw1, hw2⟩ | ⟨w, hw1, hw2⟩
        · -- the match lies entirely inside `a`
          have hs : (c :: a') ++ (patOf kt ++ b)
              = patOf kp ++ (w ++ (patOf kt ++ b)) := by
            rw [hw1, List.append_assoc]
          rw [hs, pyReplaceL_front_match _ _ _ (patOf_ne_nil kp)]
          have hlen' : (w ++ (patOf kt ++ b)).length ≤ n := by
            have h1 := congrArg List.length hs
            simp only [List.length_append, patOf, List.length_cons] at h1 hlen ⊢
            omega
          obtain ⟨a', b', hab⟩ := ih w b hlen'
          exact ⟨v ++ a', b', by rw [hab, List.append_assoc]⟩
        · -- the match would end inside the `kt` occurrence
          cases w with
          | nil =>
            -- the match ends exactly at the boundary
            have hs : (c :: a') ++ (patOf kt ++ b)
                = patOf kp ++ (patOf kt ++ b) := by
              rw [hw1]; simp
            rw [hs, pyReplaceL_front_match _ _ _ (patOf_ne_nil kp)]
            have hlen' : ([] ++ (patOf kt ++ b)).length ≤ n := by
              have h1 := congrArg List.length hs
              simp only [List.length_append, patOf, List.length_cons] at h1 hlen ⊢
              omega
            obtain ⟨a', b', hab⟩ := ih [] b hlen'
            simp only [List.nil_append] at hab
            exact ⟨v ++ a', b', by rw [hab, List.append_assoc]⟩
          | cons w0 w' =>
            exfalso
            have hsuf : (w0 :: w') <:+ patOf kp := ⟨c :: a', hw1.symm⟩
            have hnfull : (w0 :: w') ≠ patOf kp := by
              intro he
              have hll := congrArg List.length hw1
              rw [he] at hll
              simp [List.length_append] at hll
              omega
            have hpref : (w0 :: w') <+: (patOf kt ++ b) := ⟨rest, hw2.symm⟩
            have hshape : patOf kt ++ b = '{' :: '{' :: ((kt ++ ['}', '}']) ++ b) := by
              simp [patOf]
            rw [hshape] at hpref
            exact suffix_patOf_no_match hkp hsuf (by simp) hnfull _ hpref
    · cases a with
      | cons c a' =>
        have hpre' : ¬ patOf kp <+: (c :: (a' ++ (patOf kt ++ b))) := by
          simpa using hpre
        have hstep : pyReplaceL (patOf kp) v ((c :: a') ++ (patOf kt ++ b))
            = c :: pyReplaceL (patOf kp) v (a' ++ (patOf kt ++ b)) :=
          pyReplaceL_cons_neg _ _ _ _ hpre'
        rw [hstep]
        have hlen' : (a' ++ (patOf kt ++ b)).length ≤ n := by
          simp only [List.cons_append, List.length_cons] at hlen
          omega
        obtain ⟨a'', b', hab⟩ := ih a' b hlen'
        refine ⟨c :: a'', b', ?_⟩
        rw [hab]
        simp
      | nil =>
        simp only [List.nil_append] at hpre ⊢
        rw [pyReplaceL_skip_patOf kp v hkt b hpre]
        exact ⟨[], pyReplaceL (patOf kp) v b, by simp⟩

theorem str_data_inj {a b : String} (h : a.data = b.data) : a = b := by
  cases a
  cases b
  exact congrArg String.mk h

/-- Folding the paragraph substitution over a record none of whose
(brace-free) keys is `k` preserves every occurrence of `k`'s
placeholder. -/
theorem replace_placeholders_keeps_token (data : List (String × PyVal)) (k : String)
    (hkeys : ∀ kv ∈ data, braceFree kv.1.data = true)
    (hne : ∀ kv ∈ data, kv.1 ≠ k) (hk : braceFree k.data = true) :
    ∀ text : String, patOf k.data <:+: text.data →
      patOf k.data <:+: (replace_placeholders_in_text text data).data := by
  induction data with
  | nil => intro text h; exact h
  | cons kv rest ih =>
    intro text h
    have hunf : replace_placeholders_in_text text (kv :: rest)
        = replace_placeholders_in_text
            (if kv.1 != "deliverables" && isStrIntFloat kv.2 then
              pyReplace text (placeholderOf kv.1) (pyStr kv.2)
            else text) rest := rfl
    rw [hunf]
    apply ih (fun kv' h' => hkeys kv' (by simp [h']))
      (fun kv' h' => hne kv' (by simp [h']))
    by_cases hc : (kv.1 != "deliverables" && isStrIntFloat kv.2) = true
    · rw [if_pos hc]
      obtain ⟨u, w, huw⟩ := h
      have hd : (pyReplace text (placeholderOf kv.1) (pyStr kv.2)).data
          = pyReplaceL (patOf kv.1.data) (pyStr kv.2).data (u ++ (patOf k.data ++ w)) := by
        show pyReplaceL (placeholderOf kv.1).data _ text.data = _
        rw [placeholderOf_data, ← huw, List.append_assoc]
      have hnek : kv.1.data ≠ k.data :=
        fun he => hne kv (by simp) (str_data_inj he)
      obtain ⟨a', b', hab⟩ := pyReplaceL_preserves_patOf (hkeys kv (by simp)) hk hnek
        (pyStr kv.2).data (u ++ (patOf k.data ++ w)).length u w (le_refl _)
      rw [hd, hab]
      exact ⟨a', b', by rw [List.append_assoc]⟩
    · rw [if_neg hc]
      exact h

/-- C6: a record with no matching key leaves the text
byte-identical, and an unmatched placeholder — a token
`\x7b\x7bk\x7d\x7d` whose (brace-free) key is absent from the
(brace-free-keyed) record — survives verbatim in the output; the
substitution is total, so neither case errors. -/
theorem unmatched_placeholders_silent :
    (∀ (text : String) (data : List (String × PyVal)),
        (∀ kv ∈ data, ¬ (placeholderOf kv.1).data <:+: text.data) →
        replace_placeholders_in_text text data = text) ∧
    (∀ (text : String) (data : List (String × PyVal)) (k : String),
        braceFree k.data = true →
        (∀ kv ∈ data, braceFree kv.1.data = true) →
        (∀ kv ∈ data, kv.1 ≠ k) →
        (placeholderOf k).data <:+: text.data →
        (placeholderOf k).data <:+: (replace_placeholders_in_text text data).data) := by
  constructor
  · intro text data h
    exact replace_placeholders_id data text h
  · intro text data k hk hkeys hne h
    rw [placeholderOf_data] at h ⊢
    exact replace_placeholders_keeps_token data k hkeys hne hk text h

theorem unmatched_placeholders_silent_witness :
    replace_placeholders_in_text "Hi \x7b\x7bx\x7d\x7d" [("y", PyVal.vStr "2")]
      = "Hi \x7b\x7bx\x7d\x7d" ∧
    (placeholderOf "x").data <:+:
      (replace_placeholders_in_text "Hi \x7b\x7bx\x7d\x7d and \x7b\x7by\x7d\x7d"
        [("y", PyVal.vStr "2")]).data :=
  ⟨unmatched_placeholders_silent.1 "Hi \x7b\x7bx\x7d\x7d" [("y", PyVal.vStr "2")]
      (by decide),
    unmatched_placeholders_silent.2 "Hi \x7b\x7bx\x7d\x7d and \x7b\x7by\x7d\x7d"
      [("y", PyVal.vStr "2")] "x" (by decide) (by decide) (by decide) (by decide)⟩

/-! ### Order independence of placeholder substitution (C5)

A *well-formed template* is an alternation of brace-free literal chunks
and complete `\x7b\x7bkey\x7d\x7d` tokens with brace-free keys.  This
is the natural formalization of the spec's side condition "no
substituted value creates or completes another key's token in the
accumulating text": with brace-free keys and brace-free substituted
values, each `replace` turns exactly the matching tokens into literal
text and can neither create nor destroy any other token. -/

inductive Piece where
  | lit : List Char → Piece
  | hole : List Char → Piece

def renderPiece : Piece → List Char
  | .lit s => s
  | .hole k => patOf k

def render (tpl : List Piece) : List Char := tpl.flatMap renderPiece

def wfPiece : Piece → Bool
  | .lit s => braceFree s
  | .hole k => braceFree k

def wfTmpl (tpl : List Piece) : Bool := tpl.all wfPiece

def substOne (k v : List Char) : Piece → Piece
  | .lit s => .lit s
  | .hole k' => if k' = k then .lit v else .hole k'

theorem pyReplaceL_render (k v : List Char) (hk : braceFree k = true) :
    ∀ tpl : List Piece, wfTmpl tpl = true →
      pyReplaceL (patOf k) v (render tpl) = render (tpl.map (substOne k v)) := by
  intro tpl
  induction tpl with
  | nil => intro _; rfl
  | cons p rest ih =>
    intro hwf
    have hwfp : wfPiece p = true := List.all_eq_true.mp hwf p (by simp)
    have hwfr : wfTmpl rest = true :=
      List.all_eq_true.mpr (fun q hq => List.all_eq_true.mp hwf q (by simp [hq]))
    cases p with
    | lit s =>
      have hr : render (Piece.lit s :: rest) = s ++ render rest := by
        simp [render, renderPiece]
      have hchars : ∀ c ∈ s, c ≠ '{' := by
        intro c hc
        exact (braceFree_mem (by simpa [wfPiece] using hwfp) hc).1
      rw [hr, pyReplaceL_skip hchars, ih hwfr]
      simp [render, renderPiece, substOne]
    | hole k' =>
      have hbk' : braceFree k' = true := by simpa [wfPiece] using hwfp
      have hr : render (Piece.hole k' :: rest) = patOf k' ++ render rest := by
        simp [render, renderPiece]
      by_cases hkk : k' = k
      · subst hkk
        rw [hr, pyReplaceL_front_match _ _ _ (patOf_ne_nil k'), ih hwfr]
        simp [render, renderPiece, substOne]
      · have hnp : ¬ patOf k <+: (patOf k' ++ render rest) := by
          intro hp
          exact hkk (patOf_starts_patOf hk hbk' (render rest) hp).symm
        rw [hr, pyReplaceL_skip_patOf k v hbk' (render rest) hnp, ih hwfr]
        have hso : substOne k v (Piece.hole k') = Piece.hole k' := by
          simp [substOne, hkk]
        simp [render, renderPiece, hso]

def substPairsL (ps : List (List Char × List Char)) (s : List Char) : List Char :=
  ps.foldl (fun t p => pyReplaceL (patOf p.1) p.2 t) s

def substTmpl (ps : List (List Char × List Char)) (tpl : List Piece) : List Piece :=
  ps.foldl (fun tp p => tp.map (substOne p.1 p.2)) tpl

theorem wfTmpl_substOne (k v : List Char) (hv : braceFree v = true)
    (tpl : List Piece) (h : wfTmpl tpl = true) :
    wfTmpl (tpl.map (substOne k v)) = true := by
  apply List.all_eq_true.mpr
  intro q hq
  obtain ⟨p, hp, hpq⟩ := List.mem_map.mp hq
  have hwp := List.all_eq_true.mp h p hp
  cases p with
  | lit s => rw [← hpq]; exact hwp
  | hole k' =>
    by_cases hkk : k' = k
    · rw [← hpq]
      simp [substOne, hkk, wfPiece, hv]
    · rw [← hpq]
      simpa [substOne, hkk, wfPiece] using hwp

theorem substPairsL_render (ps : List (List Char × List Char))
    (hkeys : ∀ p ∈ ps, braceFree p.1 = true)
    (hvals : ∀ p ∈ ps, braceFree p.2 = true) :
    ∀ tpl : List Piece, wfTmpl tpl = true →
      substPairsL ps (render tpl) = render (substTmpl ps tpl) := by
  induction ps with
  | nil => intro tpl _; rfl
  | cons p ps ih =>
    intro tpl hwf
    have h1 : substPairsL (p :: ps) (render tpl)
        = substPairsL ps (pyReplaceL (patOf p.1) p.2 (render tpl)) := rfl
    rw [h1, pyReplaceL_render p.1 p.2 (hkeys p (by simp)) tpl hwf,
      ih (fun q hq => hkeys q (by simp [hq])) (fun q hq => hvals q (by simp [hq]))
        (tpl.map (substOne p.1 p.2))
        (wfTmpl_substOne p.1 p.2 (hvals p (by simp)) tpl hwf)]
    rfl

def applyFind (ps : List (List Char × List Char)) : Piece → Piece
  | .lit s => .lit s
  | .hole k =>
    match ps.find? (fun p => p.1 == k) with
    | some p => .lit p.2
    | none => .hole k

theorem substTmpl_eq_applyFind (ps : List (List Char × List Char)) :
    ∀ tpl : List Piece, substTmpl ps tpl = tpl.map (applyFind ps) := by
  induction ps with
  | nil =>
    intro tpl
    have hid : ∀ q : Piece, applyFind [] q = q := by
      intro q
      cases q <;> rfl
    induction tpl with
    | nil => rfl
    | cons q tpl ihq => rw [List.map_cons, hid q]; exact congrArg (q :: ·) ihq
  | cons p ps ih =>
    intro tpl
    have h1 : substTmpl (p :: ps) tpl = substTmpl ps (tpl.map (substOne p.1 p.2)) := rfl
    rw [h1, ih, List.map_map]
    apply List.map_congr_left
    intro q _
    show applyFind ps (substOne p.1 p.2 q) = applyFind (p :: ps) q
    cases q with
    | lit s => rfl
    | hole k =>
      by_cases hkk : k = p.1
      · have hbeq : (p.1 == k) = true := by
          simp [hkk]
        have hfind : (p :: ps).find? (fun r => r.1 == k) = some p :=
          List.find?_cons_of_pos ps hbeq
        show applyFind ps (if k = p.1 then Piece.lit p.2 else Piece.hole k) = _
        rw [if_pos hkk]
        show Piece.lit p.2 = applyFind (p :: ps) (Piece.hole k)
        show Piece.lit p.2
          = match (p :: ps).find? (fun r => r.1 == k) with
            | some r => Piece.lit r.2
            | none => Piece.hole k
        rw [hfind]
      · have hbeq : ¬ (p.1 == k) = true := by
          intro hb
          exact hkk (eq_of_beq hb).symm
        have hfind : (p :: ps).find? (fun r => r.1 == k) = ps.find? (fun r => r.1 == k) :=
          List.find?_cons_of_neg ps hbeq
        show applyFind ps (if k = p.1 then Piece.lit p.2 else Piece.hole k) = _
        rw [if_neg hkk]
        show applyFind ps (Piece.hole k) = applyFind (p :: ps) (Piece.hole k)
        show (match ps.find? (fun r => r.1 == k) with
            | some r => Piece.lit r.2
            | none => Piece.hole k)
          = match (p :: ps).find? (fun r => r.1 == k) with
            | some r => Piece.lit r.2
            | none => Piece.hole k
        rw [hfind]

theorem nodup_keys_eq {α β : Type} {ps : List (α × β)}
    (hnd : (ps.map Prod.fst).Nodup) {p q : α × β}
    (hp : p ∈ ps) (hq : q ∈ ps) (hk : p.1 = q.1) : p = q := by
  induction ps with
  | nil => simp at hp
  | cons x rest ih =>
    have hnd' : (rest.map Prod.fst).Nodup := (List.nodup_cons.mp hnd).2
    have hx : x.1 ∉ rest.map Prod.fst := (List.nodup_cons.mp hnd).1
    rcases List.mem_cons.mp hp with hpx | hpr
    · rcases List.mem_cons.mp hq with hqx | hqr
      · rw [hpx, hqx]
      · exfalso
        apply hx
        have hxq : x.1 = q.1 := by rw [← hpx]; exact hk
        rw [hxq]
        exact List.mem_map.mpr ⟨q, hqr, rfl⟩
    · rcases List.mem_cons.mp hq with hqx | hqr
      · exfalso
        apply hx
        have hxp : x.1 = p.1 := by rw [← hqx]; exact hk.symm
        rw [hxp]
        exact List.mem_map.mpr ⟨p, hpr, rfl⟩
      · exact ih hnd' hpr hqr

theorem find?_perm_of_nodup_keys {ps qs : List (List Char × List Char)}
    (hperm : ps.Perm qs) (hnd : (ps.map Prod.fst).Nodup) (k : List Char) :
    ps.find? (fun p => p.1 == k) = qs.find? (fun p => p.1 == k) := by
  cases hf : ps.find? (fun p => p.1 == k) with
  | none =>
    have hall := List.find?_eq_none.mp hf
    symm
    apply List.find?_eq_none.mpr
    intro x hx
    exact hall x (hperm.symm.subset hx)
  | some p =>
    have hp := List.find?_some hf
    have hmem := List.mem_of_find?_eq_some hf
    cases hg : qs.find? (fun p => p.1 == k) with
    | none =>
      exact absurd hp (List.find?_eq_none.mp hg p (hperm.subset hmem))
    | some q =>
      have hq := List.find?_some hg
      have hqmem := List.mem_of_find?_eq_some hg
      have hpk : p.1 = k := eq_of_beq hp
      have hqk : q.1 = k := eq_of_beq hq
      have hqps : q ∈ ps := hperm.symm.subset hqmem
      rw [nodup_keys_eq hnd hmem hqps (hpk.trans hqk.symm)]

/-- The loop condition of `replace_placeholders_in_text`. -/
def condKV (kv : String × PyVal) : Bool :=
  kv.1 != "deliverables" && isStrIntFloat kv.2

/-- The (pattern key, replacement) pairs the paragraph substitution
actually applies, in iteration order. -/
def pairsOf (data : List (String × PyVal)) : List (List Char × List Char) :=
  (data.filter condKV).map (fun kv => (kv.1.data, (pyStr kv.2).data))

theorem replace_placeholders_data (data : List (String × PyVal)) :
    ∀ text : String,
      (replace_placeholders_in_text text data).data
        = substPairsL (pairsOf data) text.data := by
  induction data with
  | nil => intro text; rfl
  | cons kv rest ih =>
    intro text
    have hunf : replace_placeholders_in_text text (kv :: rest)
        = replace_placeholders_in_text
            (if kv.1 != "deliverables" && isStrIntFloat kv.2 then
              pyReplace text (placeholderOf kv.1) (pyStr kv.2)
            else text) rest := rfl
    rw [hunf]
    by_cases hc : condKV kv = true
    · have hcond : (kv.1 != "deliverables" && isStrIntFloat kv.2) = true := hc
      rw [if_pos hcond, ih]
      have hpairs : pairsOf (kv :: rest)
          = (kv.1.data, (pyStr kv.2).data) :: pairsOf rest := by
        simp [pairsOf, List.filter_cons, hc]
      rw [hpairs]
      have hdata : (pyReplace text (placeholderOf kv.1) (pyStr kv.2)).data
          = pyReplaceL (patOf kv.1.data) (pyStr kv.2).data text.data := by
        show pyReplaceL (placeholderOf kv.1).data (pyStr kv.2).data text.data = _
        rw [placeholderOf_data]
      rw [hdata]
      rfl
    · have hcx : condKV kv = false := by
        cases hx : condKV kv with
        | false => rfl
        | true => exact absurd hx hc
      have hcond : (kv.1 != "deliverables" && isStrIntFloat kv.2) = false := hcx
      rw [hcond]
      simp only [Bool.false_eq_true, if_false, ih]
      have hpairs : pairsOf (kv :: rest) = pairsOf rest := by
        simp [pairsOf, List.filter_cons, hcx]
      rw [hpairs]

/-- C5: on a well-formed template (brace-free literal chunks and
complete placeholder tokens with brace-free keys) and a record with
distinct brace-free keys and brace-free substituted values — the
regime in which no substitution can create or complete another key's
token in the accumulating text — `replace_placeholders_in_text`
returns the same string for every iteration order of the record. -/
theorem substitution_order_independence (tpl : List Piece)
    (data data' : List (String × PyVal)) (hperm : data.Perm data')
    (hwf : wfTmpl tpl = true)
    (hnd : (data.map Prod.fst).Nodup)
    (hkeys : ∀ kv ∈ data, braceFree kv.1.data = true)
    (hvals : ∀ kv ∈ data, braceFree (pyStr kv.2).data = true) :
    replace_placeholders_in_text (String.mk (render tpl)) data
      = replace_placeholders_in_text (String.mk (render tpl)) data' := by
  apply str_data_inj
  rw [replace_placeholders_data data, replace_placeholders_data data']
  have hkeys1 : ∀ p ∈ pairsOf data, braceFree p.1 = true := by
    intro p hp
    obtain ⟨kv, hkv, hpkv⟩ := List.mem_map.mp hp
    rw [← hpkv]
    exact hkeys kv (List.mem_of_mem_filter hkv)
  have hvals1 : ∀ p ∈ pairsOf data, braceFree p.2 = true := by
    intro p hp
    obtain ⟨kv, hkv, hpkv⟩ := List.mem_map.mp hp
    rw [← hpkv]
    exact hvals kv (List.mem_of_mem_filter hkv)
  have hpairsperm : (pairsOf data).Perm (pairsOf data') :=
    (hperm.filter condKV).map _
  have hkeys2 : ∀ p ∈ pairsOf data', braceFree p.1 = true :=
    fun p hp => hkeys1 p (hpairsperm.symm.subset hp)
  have hvals2 : ∀ p ∈ pairsOf data', braceFree p.2 = true :=
    fun p hp => hvals1 p (hpairsperm.symm.subset hp)
  rw [substPairsL_render (pairsOf data) hkeys1 hvals1 tpl hwf,
    substPairsL_render (pairsOf data') hkeys2 hvals2 tpl hwf,
    substTmpl_eq_applyFind, substTmpl_eq_applyFind]
  have hndp : ((pairsOf data).map Prod.fst).Nodup := by
    have h1 : (pairsOf data).map Prod.fst
        = ((data.filter condKV).map Prod.fst).map String.data := by
      simp [pairsOf, List.map_map]
    rw [h1]
    apply List.Nodup.map (fun a b h => str_data_inj h)
    exact ((List.filter_sublist data).map Prod.fst).nodup hnd
  congr 1
  apply List.map_congr_left
  intro q _
  cases q with
  | lit s => rfl
  | hole k =>
    show (match (pairsOf data).find? (fun p => p.1 == k) with
        | some p => Piece.lit p.2
        | none => Piece.hole k)
      = match (pairsOf data').find? (fun p => p.1 == k) with
        | some p => Piece.lit p.2
        | none => Piece.hole k
    rw [find?_perm_of_nodup_keys hpairsperm hndp k]

theorem substitution_order_independence_witness :
    replace_placeholders_in_text
        (String.mk (render [Piece.lit "Hi ".data, Piece.hole "a".data,
          Piece.lit " ".data, Piece.hole "b".data]))
        [("a", PyVal.vStr "1"), ("b", PyVal.vStr "2")]
      = replace_placeholders_in_text
          (String.mk (render [Piece.lit "Hi ".data, Piece.hole "a".data,
            Piece.lit " ".data, Piece.hole "b".data]))
          [("b", PyVal.vStr "2"), ("a", PyVal.vStr "1")] :=
  substitution_order_independence
    [Piece.lit "Hi ".data, Piece.hole "a".data, Piece.lit " ".data, Piece.hole "b".data]
    [("a", PyVal.vStr "1"), ("b", PyVal.vStr "2")]
    [("b", PyVal.vStr "2"), ("a", PyVal.vStr "1")]
    (List.Perm.swap ("b", PyVal.vStr "2") ("a", PyVal.vStr "1") [])
    (by decide) (by decide) (by decide) (by decide)

end DelphosWorks
